import Mathlib

/-!
Verification of the simple-ledger repository core: the chain store with its
fork-choice `append`, balance derivation, and the node message handlers.

Machine integers (`u64` amounts and balances, 256-bit hashes and addresses)
are embedded as `Nat`; the one place where `u64` overflow matters (the
unchecked credit addition in `balance_of`) carries an explicit `% 2 ^ 64`.
Rust panics (out-of-bounds indexing, `unwrap`, `todo!()`) are modelled by
`Option`: a function returns `Option.none` exactly when the source panics.
The SHA-256 and secp256k1 primitives used by `ledger-types` live in external
crates (`k256`, `sha2`); they are abstracted as a `Crypto` parameter record.
`HashMap`s are modelled as association lists whose `insert` replaces the
first entry with the given key, matching the observable lookup behaviour.
-/

namespace SimpleLedger

/-- 32-byte value (hash or address), as a 256-bit big-endian integer. -/
abbrev B256 := Nat

/-- TransactionData from ledger-types: recipient and amount. -/
structure TransactionData where
  «to» : B256
  amount : Nat
deriving DecidableEq

/-- Signature from ledger-types: two scalars and a recovery id. -/
structure Signature where
  r : B256
  s : B256
  recovery_id : Nat
deriving DecidableEq

/-- Transaction from ledger-types. -/
structure Transaction where
  hash : B256
  «from» : B256
  data : TransactionData
  signature : Signature
deriving DecidableEq

/-- BlockData from ledger-types. -/
structure BlockData where
  prev_hash : B256
  number : Nat
  transactions : List Transaction
deriving DecidableEq

/-- Block from ledger-types. -/
structure Block where
  hash : B256
  data : BlockData
  proposer : B256
  signature : Signature
deriving DecidableEq

/-- B256::distance: absolute difference of the 256-bit integers. -/
def B256.distance (a b : B256) : B256 :=
  if a > b then a - b else b - a

/-- Association-list lookup, first match wins (HashMap lookup). -/
def alLookup {α : Type} (m : List (B256 × α)) (k : B256) : Option α :=
  match m with
  | [] => Option.none
  | p :: rest => if p.1 = k then some p.2 else alLookup rest k

/-- Association-list insert replacing the first entry with the key
(HashMap insert, observationally). -/
def alInsert {α : Type} (k : B256) (v : α) : List (B256 × α) → List (B256 × α)
  | [] => [(k, v)]
  | p :: rest => if p.1 = k then (k, v) :: rest else p :: alInsert k v rest

/-- The chain store from node/src/block.rs and node/src/main.rs. -/
structure Blocks where
  hashes : List B256
  data : List (B256 × Block)
deriving DecidableEq

/-- Result type of Blocks::append. -/
inductive BlockAppendResult where
  | NeedSync : Nat → BlockAppendResult
  | Added : BlockAppendResult
  | None : BlockAppendResult
deriving DecidableEq

/-- Blocks::append_unchecked: push the hash and insert the block. -/
def Blocks.append_unchecked (s : Blocks) (b : Block) : Blocks :=
  ⟨s.hashes ++ [b.hash], alInsert b.hash b s.data⟩

/-- Blocks::append, the fork-choice kernel. `Option.none` models a panic:
the indexing `self.hashes[new_block_number - 1]` before the height
comparison, and the map indexing `self.data[&current_hash]`. -/
def Blocks.append (s : Blocks) (b : Block) : Option (BlockAppendResult × Blocks) :=
  if s.hashes.isEmpty ∧ b.data.number = 0 then
    some (.Added, s.append_unchecked b)
  else if b.data.number = 0 then
    some (.None, s)
  else
    match s.hashes.get? (b.data.number - 1) with
    | Option.none => Option.none
    | some prev_block_hash =>
      if b.data.prev_hash ≠ prev_block_hash then some (.None, s)
      else if b.data.number = s.hashes.length then
        some (.Added, s.append_unchecked b)
      else if b.data.number > s.hashes.length then
        some (.NeedSync s.hashes.length, s)
      else
        match s.hashes.get? (b.data.number - 1) with
        | Option.none => Option.none
        | some current_hash =>
          match alLookup s.data current_hash with
          | Option.none => Option.none
          | some current_block =>
            if B256.distance current_block.proposer prev_block_hash >
                B256.distance b.proposer prev_block_hash then
              some (.NeedSync (b.data.number + 1),
                Blocks.append_unchecked ⟨s.hashes.take b.data.number, s.data⟩ b)
            else
              some (.None, s)

/-- Applies Blocks::append to a list of candidate blocks in order,
propagating panics and discarding the per-call results. -/
def appendList (s : Blocks) : List Block → Option Blocks
  | [] => some s
  | b :: rest =>
    match Blocks.append s b with
    | Option.none => Option.none
    | some (_, s2) => appendList s2 rest

/-- The transactions of the chain in chain order, as flat-mapped by
balance_of; `Option.none` models the panic of `self.data[hash]` on a
hash missing from the map. -/
def chainTxsOpt (s : Blocks) : Option (List Transaction) :=
  s.hashes.foldr
    (fun h acc =>
      match alLookup s.data h, acc with
      | some b, some l => some (b.data.transactions ++ l)
      | _, _ => Option.none)
    (some [])

/-- One iteration of the balance loop in Blocks::balance_of: the credit is
an unchecked u64 addition (wrapping modulo 2 ^ 64), the debit is
`saturating_sub` (which on `Nat` is plain truncated subtraction). -/
def balanceStep (a : B256) (bal : Nat) (t : Transaction) : Nat :=
  let bal1 := if t.data.«to» = a then (bal + t.data.amount) % 2 ^ 64 else bal
  if t.«from» = a then bal1 - t.data.amount else bal1

/-- Blocks::balance_of: linear scan over all chain transactions. -/
def Blocks.balance_of (s : Blocks) (a : B256) : Option Nat :=
  (chainTxsOpt s).map (fun l => l.foldl (balanceStep a) 0)

/-- NodeInfo from ledger-types (socket addresses as plain numbers). -/
structure NodeInfo where
  name : String
  address : B256
  socket : Nat
deriving DecidableEq

/-- The message union dispatched by Node::process_message. -/
inductive Message where
  | Hello : NodeInfo → Message
  | Transaction : SimpleLedger.Transaction → Message
  | Block : SimpleLedger.Block → Message
  | SyncBlock : B256 → Nat → Message
  | BalanceOf : Nat → B256 → Message
deriving DecidableEq

/-- An outbound datagram: destination socket and message. -/
abbrev OutMsg := Nat × Message

/-- The cryptographic primitives of ledger-types, abstracted: SHA-256
hashing of transaction and block payloads, ECDSA address recovery, and
this node signing key (its signing function and derived address) live in
the external k256 and sha2 crates. -/
structure Crypto where
  txHash : TransactionData → B256
  blockHash : BlockData → B256
  recover : Signature → B256 → Option B256
  sign : B256 → Signature
  signerAddress : B256

/-- Transaction::verify from ledger-types: recomputed hash must match the
stored hash, and the address recovered from the signature must match
`from`. -/
def Transaction.verify (c : Crypto) (t : Transaction) : Bool :=
  if c.txHash t.data ≠ t.hash then false
  else
    match c.recover t.signature (c.txHash t.data) with
    | some addr => t.«from» = addr
    | Option.none => false

/-- Block::verify from ledger-types: same rule with `proposer`. -/
def Block.verify (c : Crypto) (b : Block) : Bool :=
  if c.blockHash b.data ≠ b.hash then false
  else
    match c.recover b.signature (c.blockHash b.data) with
    | some addr => b.proposer = addr
    | Option.none => false

/-- The node state: peer directory, chain store and pending pool
(transport and signer are modelled outside the state). -/
structure Node where
  info : NodeInfo
  others : List (B256 × NodeInfo)
  blocks : Blocks
  pending_transactions : List (B256 × Transaction)
deriving DecidableEq

/-- Node::send_to_others: one copy of the message per known peer. -/
def sendToOthers (n : Node) (m : Message) : List OutMsg :=
  n.others.map (fun p => (p.2.socket, m))

/-- Node::propose_block: drain the pool, build a block on top of
`hashes.last().unwrap()` (panics — `Option.none` — on an empty chain),
append it unchecked and broadcast it. -/
def proposeBlock (c : Crypto) (n : Node) : Option (Node × List OutMsg) :=
  match n.blocks.hashes.getLast? with
  | Option.none => Option.none
  | some prev =>
    let txs := n.pending_transactions.map Prod.snd
    let bd : BlockData := ⟨prev, n.blocks.hashes.length, txs⟩
    let h := c.blockHash bd
    let b : Block := ⟨h, bd, c.signerAddress, c.sign h⟩
    let n2 : Node := { n with pending_transactions := [],
                              blocks := n.blocks.append_unchecked b }
    some (n2, sendToOthers n2 (Message.Block b))

/-- Node::process_transaction: verify, balance-check, insert into the
pending pool; when novel, rebroadcast and propose a block. -/
def processTransaction (c : Crypto) (n : Node) (t : Transaction) :
    Option (Node × List OutMsg) :=
  if Transaction.verify c t = false then some (n, [])
  else
    match Blocks.balance_of n.blocks t.«from» with
    | Option.none => Option.none
    | some bal =>
      if bal < t.data.amount then some (n, [])
      else
        let replaced := alLookup n.pending_transactions t.hash
        let n1 : Node :=
          { n with pending_transactions := alInsert t.hash t n.pending_transactions }
        if replaced.isSome then some (n1, [])
        else
          let msgs1 := sendToOthers n1 (Message.Transaction t)
          match proposeBlock c n1 with
          | Option.none => Option.none
          | some (n2, msgs2) => some (n2, msgs1 ++ msgs2)

/-- Node::process_block: verify and reject self-echoes, then run append;
the `BlockAppendResult::None` arm of the source is `todo!()`, which
panics (`Option.none`). -/
def processBlock (c : Crypto) (n : Node) (b : Block) :
    Option (Node × List OutMsg) :=
  if Block.verify c b = false ∨ b.proposer = n.info.address then some (n, [])
  else
    match Blocks.append n.blocks b with
    | Option.none => Option.none
    | some (res, blocks2) =>
      let n2 : Node := { n with blocks := blocks2 }
      match res with
      | .NeedSync start => some (n2, sendToOthers n2 (Message.SyncBlock n.info.address start))
      | .Added => some (n2, sendToOthers n2 (Message.Block b))
      | .None => Option.none

/-! Concrete fixtures used by counterexamples and witnesses. -/

/-- A placeholder signature for blocks and transactions whose signature
content is irrelevant to the statement at hand. -/
def sig0 : Signature := ⟨0, 0, 0⟩

/-- Genesis fixture for the fork-choice claims: proposer 10, hash 10. -/
def g1c : Block := ⟨10, ⟨0, 0, []⟩, 10, sig0⟩

/-- Incumbent at height 1: proposer 100, hash 11, child of g1c. -/
def b1c : Block := ⟨11, ⟨10, 1, []⟩, 100, sig0⟩

/-- Challenger at height 1: proposer 50, hash 12, child of g1c. -/
def b2c : Block := ⟨12, ⟨10, 1, []⟩, 50, sig0⟩

/-- The two-block store holding g1c and b1c. -/
def s1c : Blocks := ⟨[10, 11], [(10, g1c), (11, b1c)]⟩

/-- Height-1 store (genesis g1c only). -/
def s2W : Blocks := ⟨[10], [(10, g1c)]⟩

/-- A block with number 2, two past the height of s2W. -/
def b2W : Block := ⟨20, ⟨10, 2, []⟩, 3, sig0⟩

/-- Genesis for the order-dependence counterexample: proposer 0, hash 100,
so the parent self-distance threshold is 100. -/
def g4c : Block := ⟨100, ⟨0, 0, []⟩, 0, sig0⟩

/-- Sibling at height 1 with proposer 60 (distance 40 to the genesis hash). -/
def b14c : Block := ⟨101, ⟨100, 1, []⟩, 60, sig0⟩

/-- Sibling at height 1 with proposer 70 (distance 30 to the genesis hash). -/
def b24c : Block := ⟨102, ⟨100, 1, []⟩, 70, sig0⟩

/-- Store holding only g4c. -/
def s04c : Blocks := ⟨[100], [(100, g4c)]⟩

/-- A concrete crypto instance for closed node-level statements: the block
hash is determined by the block number, the transaction hash by recipient
and amount, and recovery returns the first signature scalar. -/
def cW : Crypto :=
  { txHash := fun td => td.«to» + td.amount
    blockHash := fun bd => bd.number + 100
    recover := fun s _ => some s.r
    sign := fun h => ⟨h, h, 0⟩
    signerAddress := 9 }

/-- Genesis block fixture consistent with cW (number 0, hash 100). -/
def g5c : Block := ⟨100, ⟨0, 0, []⟩, 1, sig0⟩

/-- Node with g5c seated, no peers, empty pool, address 9. -/
def n5c : Node := ⟨⟨"", 9, 0⟩, [], ⟨[100], [(100, g5c)]⟩, []⟩

/-- A cW-valid transaction: to 3, amount 0, from 4, recoverable. -/
def t5c : Transaction := ⟨3, 4, ⟨3, 0⟩, ⟨4, 0, 0⟩⟩

/-- Incoming duplicate-genesis fixture, cW-valid: number 0, prev_hash 41 is
ignored, hash 100 matches cW, proposer 7 distinct from the node address. -/
def b3c : Block := ⟨100, ⟨41, 0, []⟩, 7, ⟨7, 0, 0⟩⟩

/-- A fresh node: empty chain, empty pool, no peers. -/
def n8fresh : Node := ⟨⟨"", 9, 0⟩, [], ⟨[], []⟩, []⟩

/-- Genesis for the linkage counterexample (hash 7). -/
def g6c : Block := ⟨7, ⟨0, 0, []⟩, 0, sig0⟩

/-- Block at height 1 with stored hash field 9. -/
def b61c : Block := ⟨9, ⟨7, 1, []⟩, 1, sig0⟩

/-- Block at height 2 whose stored hash field collides with b61c. -/
def b62c : Block := ⟨9, ⟨9, 2, []⟩, 2, sig0⟩

/-- The store produced by appending g6c, b61c, b62c to the empty store. -/
def s6c : Blocks := ⟨[7, 9, 9], [(7, g6c), (9, b62c)]⟩

/-- Two 2^63 credits to address 3 from address 4. -/
def t71c : Transaction := ⟨21, 4, ⟨3, 2 ^ 63⟩, sig0⟩

/-- Second 2^63 credit to address 3 from address 4. -/
def t72c : Transaction := ⟨22, 4, ⟨3, 2 ^ 63⟩, sig0⟩

/-- Genesis carrying the two overflowing credits. -/
def g7c : Block := ⟨5, ⟨0, 0, [t71c, t72c]⟩, 0, sig0⟩

/-- Store holding only g7c. -/
def s7c : Blocks := ⟨[5], [(5, g7c)]⟩

/-- Block at height 1 above g6c with a fresh hash field 8. -/
def b6W : Block := ⟨8, ⟨7, 1, []⟩, 1, sig0⟩

/-- Store holding g6c and b6W, all hash fields distinct. -/
def s6W : Blocks := ⟨[7, 8], [(7, g6c), (8, b6W)]⟩

/-- Credit of 5 to address 3 from address 4. -/
def t7aW : Transaction := ⟨31, 4, ⟨3, 5⟩, sig0⟩

/-- Credit of 7 to address 3 from address 4. -/
def t7bW : Transaction := ⟨32, 4, ⟨3, 7⟩, sig0⟩

/-- Genesis carrying the two small credits. -/
def g7W : Block := ⟨6, ⟨0, 0, [t7aW, t7bW]⟩, 0, sig0⟩

/-- Store holding only g7W. -/
def s7W : Blocks := ⟨[6], [(6, g7W)]⟩

/-- Genesis fixture with a nonzero prev_hash and a nonempty transaction
list, to exhibit that seating performs neither check. -/
def g9W : Block := ⟨44, ⟨77, 0, [t7aW]⟩, 2, sig0⟩

/-- A 2^63 credit to address 1 from address 2, used to exhibit wrapping. -/
def t10W : Transaction := ⟨33, 2, ⟨1, 2 ^ 63⟩, sig0⟩

/-- Node whose pending pool already holds t5c. -/
def n5dup : Node := ⟨⟨"", 9, 0⟩, [], ⟨[], []⟩, [(t5c.hash, t5c)]⟩

/-- Sum of the amounts credited to `a` by the transactions of `l`. -/
def credits (a : B256) (l : List Transaction) : Nat :=
  (l.map (fun t => if t.data.«to» = a then t.data.amount else 0)).sum

/-- Hash-field injectivity: distinct blocks of the list never carry the
same stored hash field (what a collision-free content hash provides). -/
def HashInj (L : List Block) : Prop :=
  ∀ b1 ∈ L, ∀ b2 ∈ L, b1.hash = b2.hash → b1 = b2

/-- Every entry of the data map is keyed by the hash field of the block
it stores, and that block comes from L. -/
def DataFrom (L : List Block) (s : Blocks) : Prop :=
  ∀ p ∈ s.data, p.2 ∈ L ∧ p.2.hash = p.1

/-- The linkage facts at index i of the store: the hash at position i
resolves in the data map to a block with number i whose prev_hash is the
hash at position i - 1. -/
def GoodAt (s : Blocks) (i : Nat) : Prop :=
  ∃ b : Block, s.hashes.get? i = some b.hash ∧ alLookup s.data b.hash = some b ∧
    b.data.number = i ∧ ∀ j : Nat, i = j + 1 → s.hashes.get? j = some b.data.prev_hash

/-- The chain store invariant, relative to the pool L of appendable
blocks. -/
def Good (L : List Block) (s : Blocks) : Prop :=
  DataFrom L s ∧ ∀ i : Nat, i < s.hashes.length → GoodAt s i

/-! Helper lemmas about the association-list model. -/

theorem alLookup_alInsert_self {α : Type} (k : B256) (v : α) (m : List (B256 × α)) :
    alLookup (alInsert k v m) k = some v := by
  induction m with
  | nil => simp [alInsert, alLookup]
  | cons p rest ih =>
    by_cases h : p.1 = k
    · simp [alInsert, alLookup, h]
    · simp [alInsert, alLookup, h, ih]

theorem alLookup_alInsert_ne {α : Type} (k v k2) (m : List (B256 × α)) (h : k2 ≠ k) :
    alLookup (alInsert k v m) k2 = alLookup m k2 := by
  induction m with
  | nil => simp [alInsert, alLookup, Ne.symm h]
  | cons p rest ih =>
    by_cases hp : p.1 = k
    · simp [alInsert, alLookup, hp, Ne.symm h]
    · by_cases hp2 : p.1 = k2
      · simp [alInsert, alLookup, hp, hp2, h]
      · simp [alInsert, alLookup, hp, hp2, ih]

theorem alInsert_lookup_eq {α : Type} {k : B256} {v : α} {m : List (B256 × α)}
    (h : alLookup m k = some v) : alInsert k v m = m := by
  induction m with
  | nil => simp [alLookup] at h
  | cons p rest ih =>
    by_cases hp : p.1 = k
    · simp only [alLookup, if_pos hp, Option.some.injEq] at h
      obtain ⟨pk, pv⟩ := p
      simp only at hp h
      simp [alInsert, hp, h]
    · simp only [alLookup, if_neg hp] at h
      simp [alInsert, hp, ih h]

theorem alLookup_mem {α : Type} {m : List (B256 × α)} {k : B256} {v : α}
    (h : alLookup m k = some v) : (k, v) ∈ m := by
  induction m with
  | nil => simp [alLookup] at h
  | cons p rest ih =>
    by_cases hp : p.1 = k
    · simp only [alLookup, if_pos hp, Option.some.injEq] at h
      obtain ⟨pk, pv⟩ := p
      simp only at hp h
      simp [hp, h]
    · simp only [alLookup, if_neg hp] at h
      exact List.mem_cons_of_mem _ (ih h)

theorem mem_alInsert {α : Type} {p : B256 × α} {k : B256} {v : α} {m : List (B256 × α)}
    (h : p ∈ alInsert k v m) : p = (k, v) ∨ p ∈ m := by
  induction m with
  | nil => simp [alInsert] at h; exact Or.inl h
  | cons q rest ih =>
    by_cases hq : q.1 = k
    · simp only [alInsert, if_pos hq, List.mem_cons] at h
      rcases h with h | h
      · exact Or.inl h
      · exact Or.inr (List.mem_cons_of_mem _ h)
    · simp only [alInsert, if_neg hq, List.mem_cons] at h
      rcases h with h | h
      · exact Or.inr (by simp [h])
      · rcases ih h with h2 | h2
        · exact Or.inl h2
        · exact Or.inr (List.mem_cons_of_mem _ h2)

theorem credits_cons (a : B256) (t : Transaction) (l : List Transaction) :
    credits a (t :: l) = (if t.data.«to» = a then t.data.amount else 0) + credits a l := by
  simp [credits]

/-- C1: in the reorg branch the code does not compare the candidate with
the incumbent at its height: after seating genesis g1c (proposer 10,
hash 10) and incumbent b1c (proposer 100), the candidate b2c
(proposer 50) is strictly closer to the predecessor hash than the
incumbent, yet append keeps the incumbent and returns None, because it
reads `hashes[number - 1]` (the parent) instead of `hashes[number]` and
compares against the parent proposer self-distance. -/
theorem fork_choice_compares_parent_not_incumbent :
    appendList ⟨[], []⟩ [g1c, b1c] = some s1c ∧
    b2c.data.number = 1 ∧ b2c.data.prev_hash = s1c.hashes.getD 0 0 ∧
    B256.distance b2c.proposer g1c.hash < B256.distance b1c.proposer g1c.hash ∧
    Blocks.append s1c b2c = some (BlockAppendResult.None, s1c) := by decide

/-- C2: for every non-empty store and candidate block whose number
exceeds the height, append panics (models the out-of-bounds read of
`hashes[number - 1]`, evaluated before the height comparison) instead of
returning NeedSync(H); the Greater arm of the match is unreachable. -/
theorem append_above_height_panics (s : Blocks) (b : Block)
    (h0 : 0 < s.hashes.length) (h1 : s.hashes.length < b.data.number) :
    Blocks.append s b = Option.none := by
  have hne : b.data.number ≠ 0 := by omega
  have hcond : ¬(s.hashes.isEmpty ∧ b.data.number = 0) := by
    intro hc
    exact hne hc.2
  have hnone : s.hashes.get? (b.data.number - 1) = Option.none := by
    rw [List.get?_eq_none]
    omega
  unfold Blocks.append
  rw [if_neg hcond, if_neg hne, hnone]

/-- Witness for append_above_height_panics: height-1 store, block number 2. -/
theorem append_above_height_panics_witness :
    Blocks.append s2W b2W = Option.none :=
  append_above_height_panics s2W b2W (by decide) (by decide)

/-- C3: a verified block from another proposer on which append returns
None (here a duplicate genesis) makes process_block panic through the
`BlockAppendResult::None => todo!()` arm, instead of being dropped
silently. -/
theorem process_block_none_panics :
    Block.verify cW b3c = true ∧
    b3c.proposer ≠ n5c.info.address ∧
    Blocks.append n5c.blocks b3c = some (BlockAppendResult.None, n5c.blocks) ∧
    processBlock cW n5c b3c = Option.none := by decide

/-- C4: two sibling blocks at height 1 on the same genesis end with
different tips depending on arrival order, although the claim demands
the minimum-distance sibling (b24c) win in both orders: the parent
self-distance threshold (100) exceeds both sibling distances, so each
later arrival replaces the tip. -/
theorem fork_choice_order_dependent :
    B256.distance b24c.proposer g4c.hash < B256.distance b14c.proposer g4c.hash ∧
    (appendList s04c [b14c, b24c]).map (fun s => s.hashes.getD 1 0) = some b24c.hash ∧
    (appendList s04c [b24c, b14c]).map (fun s => s.hashes.getD 1 0) = some b14c.hash ∧
    b14c.hash ≠ b24c.hash := by decide

/-- C5 counterexample, both halves. Transactions: delivering the same
valid transaction twice to a node with genesis seated is not idempotent,
since the first delivery proposes a block (height 1 to 2) and, the pool
having been drained, the second delivery is treated as novel and
proposes another block (height 2 to 3). Blocks: a fresh node accepts the
valid genesis block b3c from a peer, and the second delivery of the
identical block reaches the unimplemented None arm of process_block and
panics instead of being absorbed. -/
theorem duplicate_delivery_not_idempotent :
    Transaction.verify cW t5c = true ∧
    n5c.blocks.hashes.length = 1 ∧
    (processTransaction cW n5c t5c).map (fun p => p.1.blocks.hashes.length) = some 2 ∧
    ((processTransaction cW n5c t5c).bind
      (fun p => processTransaction cW p.1 t5c)).map
        (fun p => p.1.blocks.hashes.length) = some 3 ∧
    Block.verify cW b3c = true ∧
    b3c.proposer ≠ n8fresh.info.address ∧
    (processBlock cW n8fresh b3c).map (fun p => p.1.blocks.hashes) = some [b3c.hash] ∧
    (processBlock cW n8fresh b3c).bind
      (fun p => processBlock cW p.1 b3c) = Option.none := by decide

/-- C5 amended: the only idempotent redelivery is a transaction whose
first copy is still in the pending pool: if the pool maps the hash to
the same transaction (and the balance scan does not panic), a second
delivery leaves the node unchanged and sends nothing. A redelivered
identical block is never absorbed once accepted: with any block seated,
a number-0 block (in particular the accepted genesis, delivered again)
makes process_block panic in the unimplemented None arm. -/
theorem redelivery_idempotent_only_in_pool :
    (∀ (c : Crypto) (n : Node) (t : Transaction),
      alLookup n.pending_transactions t.hash = some t →
      (Blocks.balance_of n.blocks t.«from»).isSome = true →
      processTransaction c n t = some (n, [])) ∧
    (∀ (c : Crypto) (n : Node) (b : Block),
      Block.verify c b = true → b.proposer ≠ n.info.address →
      n.blocks.hashes ≠ [] → b.data.number = 0 →
      processBlock c n b = Option.none) := by
  constructor
  · intro c n t hpool hbal
    unfold processTransaction
    by_cases hv : Transaction.verify c t = false
    · rw [if_pos hv]
    · rw [if_neg hv]
      obtain ⟨bal, hb⟩ := Option.isSome_iff_exists.mp hbal
      rw [hb]
      dsimp only
      by_cases hlt : bal < t.data.amount
      · rw [if_pos hlt]
      · rw [if_neg hlt]
        simp only [hpool, Option.isSome_some, if_pos]
        rw [alInsert_lookup_eq hpool]
  · intro c n b hv hp hne h0
    have happ : Blocks.append n.blocks b = some (BlockAppendResult.None, n.blocks) := by
      unfold Blocks.append
      rw [if_neg (fun hc => hne (List.isEmpty_iff.mp hc.1)), if_pos h0]
    unfold processBlock
    rw [if_neg (by simp [hv, hp]), happ]

/-- Witness for redelivery_idempotent_only_in_pool: a node already
holding t5c in its pool absorbs a redelivery without state change or
message, and the node with genesis seated panics on a redelivered
number-0 block. -/
theorem redelivery_idempotent_only_in_pool_witness :
    processTransaction cW n5dup t5c = some (n5dup, []) ∧
    processBlock cW n5c b3c = Option.none :=
  ⟨redelivery_idempotent_only_in_pool.1 cW n5dup t5c (by decide) (by decide),
   redelivery_idempotent_only_in_pool.2 cW n5c b3c (by decide) (by decide)
     (by decide) rfl⟩

/-- The balance fold over transactions none of which debit `a` adds up
the credits to `a` modulo 2^64. -/
theorem foldl_balanceStep_no_debit (a : B256) (l : List Transaction) :
    ∀ S : Nat, (∀ t ∈ l, t.«from» ≠ a) →
      l.foldl (balanceStep a) (S % 2 ^ 64) = (S + credits a l) % 2 ^ 64 := by
  induction l with
  | nil =>
    intro S h
    simp [credits]
  | cons t rest ih =>
    intro S h
    have hf : t.«from» ≠ a := h t (List.mem_cons_self t rest)
    have hr : ∀ u ∈ rest, u.«from» ≠ a := fun u hu => h u (List.mem_cons_of_mem _ hu)
    by_cases ht : t.data.«to» = a
    · have hstep : balanceStep a (S % 2 ^ 64) t = (S + t.data.amount) % 2 ^ 64 := by
        simp [balanceStep, ht, hf, Nat.mod_add_mod]
      rw [List.foldl_cons, hstep, ih (S + t.data.amount) hr,
        credits_cons, if_pos ht, Nat.add_assoc]
    · have hstep : balanceStep a (S % 2 ^ 64) t = S % 2 ^ 64 := by
        simp [balanceStep, ht, hf]
      rw [List.foldl_cons, hstep, ih S hr, credits_cons, if_neg ht, Nat.zero_add]

/-- C7 counterexample: two 2^63 credits to address 3, which never appears
as a sender, leave balance_of at 0 while their sum is 2^64: the u64
credit addition wraps, so balance_of does not equal the mathematical
credit sum. -/
theorem balance_credit_overflow_wraps :
    Blocks.append ⟨[], []⟩ g7c = some (BlockAppendResult.Added, s7c) ∧
    chainTxsOpt s7c = some [t71c, t72c] ∧
    t71c.«from» = 4 ∧ t72c.«from» = 4 ∧
    credits 3 [t71c, t72c] = 2 ^ 64 ∧
    Blocks.balance_of s7c 3 = some 0 ∧
    (0 : Nat) ≠ 2 ^ 64 := by decide

/-- C7 amended: balance_of scans the chain transactions in order, and for
an address never appearing as sender it equals the credit sum reduced
modulo 2^64 (hence exactly the credit sum whenever that sum is below
2^64). -/
theorem balance_monotone_credits_mod (s : Blocks) (a : B256) (l : List Transaction)
    (hl : chainTxsOpt s = some l) (hfrom : ∀ t ∈ l, t.«from» ≠ a) :
    Blocks.balance_of s a = some (credits a l % 2 ^ 64) := by
  unfold Blocks.balance_of
  rw [hl, Option.map_some']
  congr 1
  have h0 : l.foldl (balanceStep a) 0 = l.foldl (balanceStep a) (0 % 2 ^ 64) := by
    rw [Nat.zero_mod]
  rw [h0, foldl_balanceStep_no_debit a l 0 hfrom, Nat.zero_add]

/-- Witness for balance_monotone_credits_mod on a small concrete store. -/
theorem balance_monotone_credits_mod_witness :
    Blocks.balance_of s7W 3 = some (credits 3 [t7aW, t7bW] % 2 ^ 64) :=
  balance_monotone_credits_mod s7W 3 [t7aW, t7bW] (by decide) (by decide)

/-- C9: any block with number 0 appended to the empty store is seated as
genesis with hashes = [b.hash], with no constraint on its prev_hash or
its transaction list. -/
theorem genesis_seated_unchecked (b : Block) (h : b.data.number = 0) :
    Blocks.append ⟨[], []⟩ b =
      some (BlockAppendResult.Added, ⟨[b.hash], [(b.hash, b)]⟩) := by
  unfold Blocks.append
  rw [if_pos ⟨rfl, h⟩]
  rfl

/-- Witness for genesis_seated_unchecked: a number-0 block with a nonzero
prev_hash and a nonempty transaction list still becomes genesis. -/
theorem genesis_seated_unchecked_witness :
    Blocks.append ⟨[], []⟩ g9W =
      some (BlockAppendResult.Added, ⟨[g9W.hash], [(g9W.hash, g9W)]⟩) ∧
    g9W.data.prev_hash ≠ 0 ∧ g9W.data.transactions ≠ [] :=
  ⟨genesis_seated_unchecked g9W rfl, by decide, by decide⟩

/-- C10: the credit side of the balance loop is an unchecked u64 addition
(wrapping modulo 2^64, with no saturation at 2^64 - 1), while the debit
side saturates at zero; the four to/from cases of one loop iteration. -/
theorem balance_step_asymmetry (a : B256) (bal : Nat) (t : Transaction) :
    (t.data.«to» = a → t.«from» ≠ a →
      balanceStep a bal t = (bal + t.data.amount) % 2 ^ 64) ∧
    (t.data.«to» = a → t.«from» ≠ a → 2 ^ 64 ≤ bal + t.data.amount →
      bal < 2 ^ 64 → t.data.amount < 2 ^ 64 →
      balanceStep a bal t = bal + t.data.amount - 2 ^ 64) ∧
    (t.«from» = a → t.data.«to» ≠ a →
      balanceStep a bal t = bal - t.data.amount ∧
      (t.data.amount ≤ bal → balanceStep a bal t + t.data.amount = bal) ∧
      (bal ≤ t.data.amount → balanceStep a bal t = 0)) ∧
    (t.data.«to» ≠ a → t.«from» ≠ a → balanceStep a bal t = bal) ∧
    (t.data.«to» = a → t.«from» = a →
      balanceStep a bal t = (bal + t.data.amount) % 2 ^ 64 - t.data.amount) := by
  refine ⟨?_, ?_, ?_, ?_, ?_⟩
  · intro ht hf
    simp [balanceStep, ht, hf]
  · intro ht hf hge hb ha
    have h1 : balanceStep a bal t = (bal + t.data.amount) % 2 ^ 64 := by
      simp [balanceStep, ht, hf]
    rw [h1, Nat.mod_eq_sub_mod hge, Nat.mod_eq_of_lt (by omega)]
  · intro hf ht
    refine ⟨by simp [balanceStep, ht, hf], ?_, ?_⟩
    · intro hle
      simp [balanceStep, ht, hf, Nat.sub_add_cancel hle]
    · intro hle
      simp [balanceStep, ht, hf, Nat.sub_eq_zero_of_le hle]
  · intro ht hf
    simp [balanceStep, ht, hf]
  · intro ht hf
    simp [balanceStep, ht, hf]

/-- Witness for balance_step_asymmetry: a 2^63 credit on a 2^63 balance
wraps to 0 rather than saturating. -/
theorem balance_step_asymmetry_witness :
    balanceStep 1 (2 ^ 63) t10W = (2 ^ 63 + t10W.data.amount) % 2 ^ 64 ∧
    (2 ^ 63 + t10W.data.amount) % 2 ^ 64 = 0 :=
  ⟨(balance_step_asymmetry 1 (2 ^ 63) t10W).1 rfl (by decide), by decide⟩

theorem getD_of_get? {l : List B256} {i : Nat} {x : B256} (h : l.get? i = some x) :
    l.getD i 0 = x := by
  rw [List.getD_eq_get?, h]
  rfl

theorem append_unchecked_good {L : List Block} {hs : List B256}
    {dat : List (B256 × Block)} {b : Block}
    (hinj : HashInj L) (hb : b ∈ L) (hg : Good L ⟨hs, dat⟩)
    (hnum : b.data.number = hs.length)
    (hprev : ∀ j : Nat, hs.length = j + 1 → hs.get? j = some b.data.prev_hash) :
    Good L (Blocks.append_unchecked ⟨hs, dat⟩ b) := by
  unfold Blocks.append_unchecked
  constructor
  · intro p hp
    rcases mem_alInsert hp with h | h
    · subst h
      exact ⟨hb, rfl⟩
    · exact hg.1 p h
  · intro i hi
    simp only [List.length_append, List.length_cons, List.length_nil] at hi
    by_cases hilen : i = hs.length
    · subst hilen
      refine ⟨b, List.get?_concat_length hs b.hash, alLookup_alInsert_self _ _ _, hnum, ?_⟩
      intro j hj
      have hjlt : j < hs.length := by omega
      rw [List.get?_append hjlt]
      exact hprev j hj
    · have hilt : i < hs.length := by omega
      obtain ⟨bi, hget, hlook, hnumi, hprevi⟩ := hg.2 i hilt
      refine ⟨bi, ?_, ?_, hnumi, ?_⟩
      · rw [List.get?_append hilt]
        exact hget
      · by_cases hh : bi.hash = b.hash
        · have hbiL : bi ∈ L := (hg.1 _ (alLookup_mem hlook)).1
          have hbb : bi = b := hinj bi hbiL b hb hh
          rw [hh, alLookup_alInsert_self, hbb]
        · rw [alLookup_alInsert_ne _ _ _ _ hh]
          exact hlook
      · intro j hj
        have hjlt : j < hs.length := by omega
        rw [List.get?_append hjlt]
        exact hprevi j hj

theorem take_good {L : List Block} {hs : List B256} {dat : List (B256 × Block)}
    {m : Nat} (hg : Good L ⟨hs, dat⟩) : Good L ⟨hs.take m, dat⟩ := by
  constructor
  · exact hg.1
  · intro i hi
    simp only [List.length_take] at hi
    have him : i < m := lt_of_lt_of_le hi (min_le_left _ _)
    have hilen : i < hs.length := lt_of_lt_of_le hi (min_le_right _ _)
    obtain ⟨bi, hget, hlook, hnumi, hprevi⟩ := hg.2 i hilen
    refine ⟨bi, ?_, hlook, hnumi, ?_⟩
    · rw [List.get?_take him]
      exact hget
    · intro j hj
      have hjm : j < m := by omega
      rw [List.get?_take hjm]
      exact hprevi j hj

theorem append_good {L : List Block} {s : Blocks} {b : Block}
    {out : BlockAppendResult × Blocks}
    (hinj : HashInj L) (hb : b ∈ L) (hg : Good L s)
    (happ : Blocks.append s b = some out) : Good L out.2 := by
  obtain ⟨hs, dat⟩ := s
  unfold Blocks.append at happ
  by_cases h1 : (List.isEmpty hs : Prop) ∧ b.data.number = 0
  · rw [if_pos h1] at happ
    have hout := (Option.some.inj happ).symm
    subst hout
    have hnil : hs = [] := List.isEmpty_iff.mp h1.1
    subst hnil
    exact append_unchecked_good hinj hb hg (by simpa using h1.2) (fun j hj => by simp at hj)
  · rw [if_neg h1] at happ
    by_cases h2 : b.data.number = 0
    · rw [if_pos h2] at happ
      have hout := (Option.some.inj happ).symm
      subst hout
      exact hg
    · rw [if_neg h2] at happ
      cases e : List.get? hs (b.data.number - 1) with
      | none =>
        rw [e] at happ
        cases happ
      | some prev =>
        rw [e] at happ
        dsimp only at happ
        by_cases h3 : b.data.prev_hash ≠ prev
        · rw [if_pos h3] at happ
          have hout := (Option.some.inj happ).symm
          subst hout
          exact hg
        · rw [if_neg h3] at happ
          have h3e : b.data.prev_hash = prev := not_not.mp h3
          by_cases h4 : b.data.number = hs.length
          · rw [if_pos h4] at happ
            have hout := (Option.some.inj happ).symm
            subst hout
            refine append_unchecked_good hinj hb hg h4 (fun j hj => ?_)
            have hjn : b.data.number - 1 = j := by omega
            rw [← hjn, e, h3e]
          · rw [if_neg h4] at happ
            by_cases h5 : b.data.number > hs.length
            · rw [if_pos h5] at happ
              have hout := (Option.some.inj happ).symm
              subst hout
              exact hg
            · rw [if_neg h5] at happ
              cases e2 : alLookup dat prev with
              | none =>
                rw [e2] at happ
                cases happ
              | some cb =>
                rw [e2] at happ
                dsimp only at happ
                have hlt : b.data.number < hs.length := by omega
                by_cases h6 : B256.distance cb.proposer prev > B256.distance b.proposer prev
                · rw [if_pos h6] at happ
                  have hout := (Option.some.inj happ).symm
                  subst hout
                  refine append_unchecked_good hinj hb (take_good hg) ?_ (fun j hj => ?_)
                  · rw [List.length_take]
                    omega
                  · rw [List.length_take] at hj
                    have hjlt : j < b.data.number := by omega
                    rw [List.get?_take hjlt]
                    have hjn : b.data.number - 1 = j := by omega
                    rw [← hjn, e, h3e]
                · rw [if_neg h6] at happ
                  have hout := (Option.some.inj happ).symm
                  subst hout
                  exact hg

theorem appendList_good {L : List Block} (hinj : HashInj L) :
    ∀ (l : List Block) (s : Blocks), (∀ b ∈ l, b ∈ L) → Good L s →
      ∀ s2 : Blocks, appendList s l = some s2 → Good L s2 := by
  intro l
  induction l with
  | nil =>
    intro s hsub hg s2 h
    have hs2 := Option.some.inj h
    subst hs2
    exact hg
  | cons b rest ih =>
    intro s hsub hg s2 h
    unfold appendList at h
    cases e : Blocks.append s b with
    | none =>
      rw [e] at h
      cases h
    | some out =>
      obtain ⟨r0, s0⟩ := out
      rw [e] at h
      exact ih s0 (fun u hu => hsub u (List.mem_cons_of_mem _ hu))
        (append_good hinj (hsub b (List.mem_cons_self b rest)) hg e) s2 h

/-- C6 counterexample: the invariant fails for raw append sequences when
two distinct blocks carry the same stored hash field: appending g6c,
b61c, then b62c (whose hash field collides with b61c) overwrites the data
entry at hash 9, and the block found at hashes[1] has number 2, not 1. -/
theorem chain_linkage_fails_on_hash_collision :
    appendList ⟨[], []⟩ [g6c, b61c, b62c] = some s6c ∧
    (alLookup s6c.data (s6c.hashes.getD 1 0)).map (fun b => b.data.number) = some 2 ∧
    (2 : Nat) ≠ 1 := by decide

/-- C6 amended: starting from the empty store, after any non-panicking
sequence of append calls whose blocks have pairwise injective hash
fields, every height i in [1, height) stores a block whose prev_hash is
hashes[i-1] and whose number is i. -/
theorem chain_linkage_invariant (l : List Block) (s : Blocks)
    (hinj : HashInj l) (happ : appendList ⟨[], []⟩ l = some s) :
    ∀ i : Nat, 0 < i → i < s.hashes.length →
      ∃ b : Block, alLookup s.data (s.hashes.getD i 0) = some b ∧
        b.data.prev_hash = s.hashes.getD (i - 1) 0 ∧ b.data.number = i := by
  have hg0 : Good l ⟨[], []⟩ := by
    constructor
    · intro p hp
      exact absurd hp (List.not_mem_nil p)
    · intro i hi
      exact absurd hi (by simp)
  have hg := appendList_good hinj l ⟨[], []⟩ (fun b hb => hb) hg0 s happ
  intro i hi0 hilen
  obtain ⟨b, hget, hlook, hnum, hprev⟩ := hg.2 i hilen
  have hD : s.hashes.getD i 0 = b.hash := getD_of_get? hget
  have hD2 : s.hashes.getD (i - 1) 0 = b.data.prev_hash :=
    getD_of_get? (hprev (i - 1) (by omega))
  refine ⟨b, ?_, hD2.symm, hnum⟩
  rw [hD]
  exact hlook

/-- Witness for chain_linkage_invariant on the two-block chain g6c, b6W. -/
theorem chain_linkage_invariant_witness :
    ∃ b : Block, alLookup s6W.data (s6W.hashes.getD 1 0) = some b ∧
      b.data.prev_hash = s6W.hashes.getD (1 - 1) 0 ∧ b.data.number = 1 :=
  chain_linkage_invariant [g6c, b6W] s6W (by unfold HashInj; decide) (by decide) 1
    (by decide) (by decide)

/-- C8: on a fresh node (empty chain, empty pool), a transaction passing
signature verification and the balance check (amount 0, since every
balance on an empty chain is 0) is novel, so process_transaction reaches
propose_block, whose `hashes.last().unwrap()` panics; and whenever the
chain is non-empty, propose_block succeeds and the proposed block
extends the tip: prev_hash is the last stored hash and number is the
chain height. -/
theorem propose_block_genesis_dependence :
    (∀ (c : Crypto) (n : Node) (t : Transaction),
      n.blocks.hashes = [] → n.pending_transactions = [] →
      Transaction.verify c t = true → t.data.amount = 0 →
      processTransaction c n t = Option.none) ∧
    (∀ (c : Crypto) (n : Node) (prev : B256),
      n.blocks.hashes.getLast? = some prev →
      ∃ (n2 : Node) (msgs : List OutMsg) (b : Block),
        proposeBlock c n = some (n2, msgs) ∧
        n2.blocks.hashes = n.blocks.hashes ++ [b.hash] ∧
        alLookup n2.blocks.data b.hash = some b ∧
        b.data.prev_hash = prev ∧
        b.data.number = n.blocks.hashes.length ∧
        n2.pending_transactions = []) := by
  constructor
  · intro c n t hchain hpool hv hamt
    obtain ⟨ninfo, nothers, nblocks, npending⟩ := n
    obtain ⟨nhs, ndat⟩ := nblocks
    simp only at hchain hpool
    subst hchain
    subst hpool
    simp [processTransaction, hv, hamt, Blocks.balance_of, chainTxsOpt,
      proposeBlock, alLookup]
  · intro c n prev hlast
    unfold proposeBlock
    rw [hlast]
    exact ⟨_, _, _, rfl, rfl, alLookup_alInsert_self _ _ _, rfl, rfl, rfl⟩

/-- Witness for propose_block_genesis_dependence: a fresh node panics on
t5c, and the node n5c with genesis seated proposes a proper tip block. -/
theorem propose_block_genesis_dependence_witness :
    processTransaction cW n8fresh t5c = Option.none ∧
    (∃ (n2 : Node) (msgs : List OutMsg) (b : Block),
      proposeBlock cW n5c = some (n2, msgs) ∧
      n2.blocks.hashes = n5c.blocks.hashes ++ [b.hash] ∧
      alLookup n2.blocks.data b.hash = some b ∧
      b.data.prev_hash = 100 ∧
      b.data.number = n5c.blocks.hashes.length ∧
      n2.pending_transactions = []) :=
  ⟨propose_block_genesis_dependence.1 cW n8fresh t5c rfl rfl (by decide) rfl,
   propose_block_genesis_dependence.2 cW n5c 100 (by decide)⟩

end SimpleLedger
